import Mathlib

/-!
# Verification of the bs1770 loudness measurement core

A shallow embedding of the loudness measurement engine of the `bs1770`
library (`src/lib.rs`): the two-stage K-weighting pre-filter, the
windowed mean-square accumulator (`ChannelLoudnessMeter`), the stereo
reducer, and the two-stage gated mean.

The Rust code computes with `f32`; the embedding uses `ℝ`, so rounding
is abstracted away while every operation and its order is kept.  The
single place where IEEE-754 special values decide behaviour is the
division `sum / count` in `gated_mean` when `count = 0`: in `f32` this
is `0.0 / 0.0 = NaN`.  The embedding returns `Option ℝ`, with `none`
standing for that NaN outcome, and `some p` for a real result.
-/

namespace Bs1770

/-- Coefficients for a 2nd-degree infinite impulse response filter
together with the past two input and output samples
(source: `struct Filter`).  Coefficient `a0` is implicitly 1. -/
structure Filter where
  a1 : ℝ
  a2 : ℝ
  b0 : ℝ
  b1 : ℝ
  b2 : ℝ
  x1 : ℝ
  x2 : ℝ
  y1 : ℝ
  y2 : ℝ

/-- Stage 1 of the BS.1770-4 pre-filter (source: `Filter::high_shelf`).
`powf` on positive bases is embedded as real `rpow`. -/
noncomputable def Filter.high_shelf (sample_rate_hz : ℝ) : Filter :=
  let gain_db : ℝ := 3.99984385397
  let q : ℝ := 0.7071752369554193
  let center_hz : ℝ := 1681.9744509555319
  let k := Real.tan (Real.pi * center_hz / sample_rate_hz)
  let vh : ℝ := (10 : ℝ) ^ (gain_db / 20)
  let vb : ℝ := vh ^ (0.499666774155 : ℝ)
  let a0 := 1 + k / q + k * k
  { b0 := (vh + vb * k / q + k * k) / a0
    b1 := 2 * (k * k - vh) / a0
    b2 := (vh - vb * k / q + k * k) / a0
    a1 := 2 * (k * k - 1) / a0
    a2 := (1 - k / q + k * k) / a0
    x1 := 0, x2 := 0, y1 := 0, y2 := 0 }

/-- Stage 2 of the BS.1770-4 pre-filter (source: `Filter::high_pass`). -/
noncomputable def Filter.high_pass (sample_rate_hz : ℝ) : Filter :=
  let q : ℝ := 0.5003270373253953
  let center_hz : ℝ := 38.13547087613982
  let k := Real.tan (Real.pi * center_hz / sample_rate_hz)
  { a1 := 2 * (k * k - 1) / (1 + k / q + k * k)
    a2 := (1 - k / q + k * k) / (1 + k / q + k * k)
    b0 := 1
    b1 := -2
    b2 := 1
    x1 := 0, x2 := 0, y1 := 0, y2 := 0 }

/-- Feed the next input sample, get the next output sample together with
the updated filter state (source: `Filter::apply`; the Rust method
mutates `self` in place, embedded here as returning the new state). -/
noncomputable def Filter.apply (f : Filter) (x0 : ℝ) : ℝ × Filter :=
  let y0 := 0 + f.b0 * x0 + f.b1 * f.x1 + f.b2 * f.x2 - f.a1 * f.y1 - f.a2 * f.y2
  (y0, { f with x2 := f.x1, x1 := x0, y2 := f.y1, y1 := y0 })

/-- Compensated (Kahan-style) sum (source: `struct Sum`). -/
structure Sum where
  sum : ℝ
  residue : ℝ

/-- Source: `Sum::zero`. -/
noncomputable def Sum.zero : Sum := { sum := 0, residue := 0 }

/-- Source: `Sum::add` (in-place mutation embedded as returning the new
state). -/
noncomputable def Sum.add (s : Sum) (x : ℝ) : Sum :=
  let sum := s.sum + (s.residue + x)
  { sum := sum, residue := (s.residue + x) - (sum - s.sum) }

/-- Source: `Power::from_lkfs`.  `10.0_f32.powf e` is real `10 ^ e`. -/
noncomputable def Power.from_lkfs (lufs : ℝ) : ℝ :=
  (10 : ℝ) ^ ((lufs + 0.691) * 0.1)

/-- Source: `Power::loudness_lkfs`; the payload of a `Power` is embedded
as a plain real number. -/
noncomputable def Power.loudness_lkfs (p : ℝ) : ℝ :=
  -0.691 + 10 * Real.logb 10 p

/-- Source: `struct ChannelLoudnessMeter`.  `Power` values are their
real payloads; `samples_per_100ms` and `count` are the `u32` fields
(no overflow is reachable while `count` is bounded by
`samples_per_100ms`). -/
structure ChannelLoudnessMeter where
  samples_per_100ms : ℕ
  filter_stage1 : Filter
  filter_stage2 : Filter
  square_sum_windows : List ℝ
  count : ℕ
  square_sum : Sum

/-- Source: `ChannelLoudnessMeter::new`.  Note that the Rust function is
total: it performs no validation at all, for any `sample_rate_hz`
(including rates below 10 Hz, for which `samples_per_100ms` is 0). -/
noncomputable def ChannelLoudnessMeter.new (sample_rate_hz : ℕ) : ChannelLoudnessMeter :=
  { samples_per_100ms := sample_rate_hz / 10
    filter_stage1 := Filter.high_shelf (sample_rate_hz : ℝ)
    filter_stage2 := Filter.high_pass (sample_rate_hz : ℝ)
    square_sum_windows := []
    count := 0
    square_sum := Sum.zero }

/-- The body of the `for x in samples` loop of
`ChannelLoudnessMeter::push`: filter the sample through both stages,
accumulate the square, and close the 100 ms window when it is full.
The window value is `square_sum.sum * normalizer` with
`normalizer = 1 / samples_per_100ms`, the principal sum is reset to 0,
the residue is intentionally kept, and the count is reset. -/
noncomputable def processSample (m : ChannelLoudnessMeter) (x : ℝ) : ChannelLoudnessMeter :=
  let normalizer : ℝ := 1 / (m.samples_per_100ms : ℝ)
  let yf := m.filter_stage1.apply x
  let zf := m.filter_stage2.apply yf.1
  let s := m.square_sum.add (zf.1 * zf.1)
  if m.count + 1 = m.samples_per_100ms then
    { m with
      filter_stage1 := yf.2
      filter_stage2 := zf.2
      square_sum_windows := m.square_sum_windows ++ [s.sum * normalizer]
      square_sum := { s with sum := 0 }
      count := 0 }
  else
    { m with
      filter_stage1 := yf.2
      filter_stage2 := zf.2
      square_sum := s
      count := m.count + 1 }

/-- Source: `ChannelLoudnessMeter::push`, with the iterator of samples
embedded as a list folded by the loop body. -/
noncomputable def ChannelLoudnessMeter.push
    (m : ChannelLoudnessMeter) (samples : List ℝ) : ChannelLoudnessMeter :=
  samples.foldl processSample m

/-- Source: `reduce_stereo`.  The `assert_eq!` on the lengths (a panic
on mismatched inputs) is embedded as returning `none`; on equal lengths
the zip of element-wise sums is produced. -/
noncomputable def reduce_stereo (left right : List ℝ) : Option (List ℝ) :=
  if left.length = right.length then
    some (List.zipWith (fun l r => l + r) left right)
  else
    none

/-- The powers of the overlapping 400 ms gating blocks: the source
iterates `windows_100ms.windows(4)` and computes
`0.25 * window.iter().sum()` for each window of four consecutive
100 ms powers (first loop of `gated_mean`). -/
noncomputable def blockPowers : List ℝ → List ℝ
  | a :: b :: c :: d :: rest => 0.25 * (a + b + c + d) :: blockPowers (b :: c :: d :: rest)
  | _ => []

/-- Folding `Sum::add` over a list from `Sum::zero`, as the summation
loops of `gated_mean` do. -/
noncomputable def kahanSum (l : List ℝ) : Sum :=
  l.foldl Sum.add Sum.zero

/-- The power-domain gate comparison `power > threshold` of the source,
as a Boolean predicate usable with `List.filter`. -/
noncomputable def pgt (threshold x : ℝ) : Bool :=
  decide (threshold < x)

/-- Source: `gated_mean`.  The two `length = 0` branches model the f32
NaN outcomes of the source: with no block past the absolute gate the
source computes `0.0 / 0.0 = NaN` for `absolute_gated_power`, the
relative threshold becomes NaN, every `>` comparison against it is
false, so `n_blocks = 0` and the result is `0.0 / 0.0 = NaN`; likewise
a 0 count at the relative stage produces NaN directly.  `none` stands
for that NaN result. -/
noncomputable def gated_mean (windows_100ms : List ℝ) : Option ℝ :=
  let absolute_threshold := Power.from_lkfs (-70)
  let gating_blocks := (blockPowers windows_100ms).filter (pgt absolute_threshold)
  if gating_blocks.length = 0 then
    none
  else
    let absolute_gated_power := (kahanSum gating_blocks).sum / (gating_blocks.length : ℝ)
    let relative_threshold := Power.from_lkfs (Power.loudness_lkfs absolute_gated_power - 10)
    let s2 := gating_blocks.filter (pgt relative_threshold)
    if s2.length = 0 then
      none
    else
      some ((kahanSum s2).sum / (s2.length : ℝ))

/-- Modelled from the spec wording of the claim on `gated_mean`: block
powers `B k = 0.25 * (W k + W (k+1) + W (k+2) + W (k+3))` for every
`k` in `[0, n-4]`, the absolute gate keeping blocks strictly above
`Power.from_lkfs (-70)`, the mean over the count of survivors, the
relative gate strictly above `Power.from_lkfs (loudness_lkfs P1 - 10)`,
and the mean of the second set over its own count (`none` when a mean
has an empty set, matching the NaN convention of the embedding). -/
noncomputable def specGatedMean (ws : List ℝ) : Option ℝ :=
  let B := (List.range (ws.length - 3)).map fun k =>
    0.25 * (ws.getD k 0 + ws.getD (k + 1) 0 + ws.getD (k + 2) 0 + ws.getD (k + 3) 0)
  let s1 := B.filter (pgt (Power.from_lkfs (-70)))
  if s1.length = 0 then
    none
  else
    let p1 := s1.sum / (s1.length : ℝ)
    let s2 := s1.filter (pgt (Power.from_lkfs (Power.loudness_lkfs p1 - 10)))
    if s2.length = 0 then
      none
    else
      some (s2.sum / (s2.length : ℝ))

/-- The full pipeline on one channel duplicated to stereo, as the
library's own tests drive it: per-channel metering from a fresh meter,
stereo reduction of the channel with itself, gating, and conversion to
LKFS.  `none` propagates the NaN convention of `gated_mean`. -/
noncomputable def integratedLkfs (sample_rate_hz : ℕ) (samples : List ℝ) : Option ℝ :=
  ((reduce_stereo ((ChannelLoudnessMeter.new sample_rate_hz).push samples).square_sum_windows
        ((ChannelLoudnessMeter.new sample_rate_hz).push samples).square_sum_windows).bind
      gated_mean).map
    Power.loudness_lkfs

/-- Proof scaffolding (not from the source): a filter state with its
sample memory scaled by `α`; the coefficients are unchanged. -/
noncomputable def scaleFilter (α : ℝ) (f : Filter) : Filter :=
  { f with x1 := α * f.x1, x2 := α * f.x2, y1 := α * f.y1, y2 := α * f.y2 }

/-- Proof scaffolding (not from the source): a compensated sum scaled
by `c`. -/
noncomputable def scaleSum (c : ℝ) (s : Sum) : Sum :=
  { sum := c * s.sum, residue := c * s.residue }

/-- Proof scaffolding (not from the source): a meter state with the
filter memories scaled by `α` and all accumulated powers scaled by
`α ^ 2`, as they are when the input stream is scaled by `α`. -/
noncomputable def scaleMeter (α : ℝ) (m : ChannelLoudnessMeter) : ChannelLoudnessMeter :=
  { m with
    filter_stage1 := scaleFilter α m.filter_stage1
    filter_stage2 := scaleFilter α m.filter_stage2
    square_sum_windows := m.square_sum_windows.map fun w => α ^ 2 * w
    square_sum := scaleSum (α ^ 2) m.square_sum }

/-! ## Helper lemmas on the compensated sum and the gating blocks -/

/-- A single compensated add, over the reals: the principal sum absorbs
everything and the residue is exactly 0. -/
theorem Sum.add_residue (s : Sum) (x : ℝ) (h : s.residue = 0) :
    (s.add x).residue = 0 ∧ (s.add x).sum = s.sum + x := by
  unfold Sum.add
  constructor
  · simp only [h]
    ring
  · simp only [h]
    ring

/-- Folding compensated adds from a residue-free state, over the reals,
is the plain sum. -/
theorem foldl_add_spec (l : List ℝ) :
    ∀ s : Sum, s.residue = 0 →
      (l.foldl Sum.add s).residue = 0 ∧ (l.foldl Sum.add s).sum = s.sum + l.sum := by
  induction l with
  | nil =>
    intro s h
    simp only [List.foldl_nil, List.sum_nil, add_zero]
    exact ⟨h, trivial⟩
  | cons x xs ih =>
    intro s h
    obtain ⟨h1, h2⟩ := Sum.add_residue s x h
    obtain ⟨r, t⟩ := ih (s.add x) h1
    simp only [List.foldl_cons]
    exact ⟨r, by rw [t, h2, List.sum_cons]; ring⟩

/-- The summation loops of `gated_mean` compute the plain sum of their
input (over the reals, Kahan compensation is exact). -/
theorem kahanSum_sum (l : List ℝ) : (kahanSum l).sum = l.sum := by
  have h := foldl_add_spec l Sum.zero rfl
  have h0 : Sum.zero.sum = 0 := rfl
  rw [kahanSum, h.2, h0, zero_add]

/-- The 400 ms gating-block powers, written by index: block `k` is
`0.25 * (W k + W (k+1) + W (k+2) + W (k+3))` for `k` up to `n - 4`. -/
theorem blockPowers_eq :
    ∀ ws : List ℝ,
      blockPowers ws =
        (List.range (ws.length - 3)).map fun k =>
          0.25 * (ws.getD k 0 + ws.getD (k + 1) 0 + ws.getD (k + 2) 0 + ws.getD (k + 3) 0)
  | a :: b :: c :: d :: rest => by
    have ih := blockPowers_eq (b :: c :: d :: rest)
    rw [blockPowers, ih]
    have hlen : (a :: b :: c :: d :: rest).length - 3 =
        ((b :: c :: d :: rest).length - 3) + 1 := by
      simp only [List.length_cons]
      omega
    rw [hlen, List.range_succ_eq_map, List.map_cons, List.map_map]
    congr 1
  | [] => rfl
  | [_] => rfl
  | [_, _] => rfl
  | [_, _, _] => rfl

/-- Fewer than four 100 ms windows yield no gating block. -/
theorem blockPowers_short (ws : List ℝ) (h : ws.length < 4) : blockPowers ws = [] := by
  rw [blockPowers_eq]
  have h3 : ws.length - 3 = 0 := by omega
  rw [h3]
  rfl

/-! ## Helper lemmas on `processSample` and `push` -/

/-- `processSample` never changes `samples_per_100ms`. -/
theorem processSample_spp (m : ChannelLoudnessMeter) (x : ℝ) :
    (processSample m x).samples_per_100ms = m.samples_per_100ms := by
  unfold processSample
  split <;> rfl

/-- Characterization of the window-completing branch of the push loop. -/
theorem processSample_full (m : ChannelLoudnessMeter) (x : ℝ)
    (hfull : m.count + 1 = m.samples_per_100ms) :
    processSample m x =
      { m with
        filter_stage1 := (m.filter_stage1.apply x).2
        filter_stage2 := (m.filter_stage2.apply (m.filter_stage1.apply x).1).2
        square_sum_windows := m.square_sum_windows ++
          [(m.square_sum.add
              ((m.filter_stage2.apply (m.filter_stage1.apply x).1).1 *
                (m.filter_stage2.apply (m.filter_stage1.apply x).1).1)).sum *
            (1 / (m.samples_per_100ms : ℝ))]
        square_sum :=
          { m.square_sum.add
              ((m.filter_stage2.apply (m.filter_stage1.apply x).1).1 *
                (m.filter_stage2.apply (m.filter_stage1.apply x).1).1) with
            sum := 0 }
        count := 0 } := by
  unfold processSample
  rw [if_pos hfull]

/-- Characterization of the non-completing branch of the push loop. -/
theorem processSample_notfull (m : ChannelLoudnessMeter) (x : ℝ)
    (hfull : m.count + 1 ≠ m.samples_per_100ms) :
    processSample m x =
      { m with
        filter_stage1 := (m.filter_stage1.apply x).2
        filter_stage2 := (m.filter_stage2.apply (m.filter_stage1.apply x).1).2
        square_sum :=
          m.square_sum.add
            ((m.filter_stage2.apply (m.filter_stage1.apply x).1).1 *
              (m.filter_stage2.apply (m.filter_stage1.apply x).1).1)
        count := m.count + 1 } := by
  unfold processSample
  rw [if_neg hfull]

/-- One step of `push`. -/
theorem push_cons (m : ChannelLoudnessMeter) (x : ℝ) (xs : List ℝ) :
    m.push (x :: xs) = (processSample m x).push xs := rfl

/-- Pushing a concatenation is pushing the parts in order. -/
theorem push_append (m : ChannelLoudnessMeter) (a b : List ℝ) :
    m.push (a ++ b) = (m.push a).push b := by
  simp [ChannelLoudnessMeter.push]

/-- Folding `push` over a list of chunks is one `push` of the flattened
stream. -/
theorem push_flatten (m : ChannelLoudnessMeter) (chunks : List (List ℝ)) :
    chunks.foldl ChannelLoudnessMeter.push m = m.push chunks.flatten := by
  induction chunks generalizing m with
  | nil => rfl
  | cons c rest ih => simp [List.flatten_cons, push_append, ih]

/-- Count/window bookkeeping of a single `push`: starting from a state
whose open count is below the window size, the final count is the total
modulo the window size and the emitted windows grow by the total
divided by the window size. -/
theorem push_count_windows (xs : List ℝ) :
    ∀ m : ChannelLoudnessMeter, 0 < m.samples_per_100ms → m.count < m.samples_per_100ms →
      (m.push xs).count = (m.count + xs.length) % m.samples_per_100ms ∧
        (m.push xs).square_sum_windows.length =
          m.square_sum_windows.length + (m.count + xs.length) / m.samples_per_100ms ∧
        (m.push xs).samples_per_100ms = m.samples_per_100ms := by
  induction xs with
  | nil =>
    intro m hpos hlt
    refine ⟨?_, ?_, rfl⟩
    · simpa [ChannelLoudnessMeter.push] using (Nat.mod_eq_of_lt hlt).symm
    · simp [ChannelLoudnessMeter.push, Nat.div_eq_of_lt hlt]
  | cons x xs ih =>
    intro m hpos hlt
    have hstep : m.push (x :: xs) = (processSample m x).push xs := rfl
    by_cases hfull : m.count + 1 = m.samples_per_100ms
    · have hm' := processSample_full m x hfull
      have h1 : (processSample m x).samples_per_100ms = m.samples_per_100ms :=
        processSample_spp m x
      have h2 : (processSample m x).count = 0 := by rw [hm']
      have h3 : (processSample m x).square_sum_windows.length =
          m.square_sum_windows.length + 1 := by rw [hm']; simp
      obtain ⟨ic, iw, ispp⟩ := ih (processSample m x) (h1 ▸ hpos) (by rw [h2, h1]; exact hpos)
      have harith : m.count + (x :: xs).length = xs.length + m.samples_per_100ms := by
        simp only [List.length_cons]
        omega
      refine ⟨?_, ?_, by rw [hstep, ispp, h1]⟩
      · rw [hstep, ic, h2, h1, harith, Nat.add_mod_right, Nat.zero_add]
      · rw [hstep, iw, h2, h1, h3, harith, Nat.add_div_right _ hpos, Nat.zero_add]
        omega
    · have hm' := processSample_notfull m x hfull
      have h1 : (processSample m x).samples_per_100ms = m.samples_per_100ms :=
        processSample_spp m x
      have h2 : (processSample m x).count = m.count + 1 := by rw [hm']
      have h3 : (processSample m x).square_sum_windows.length =
          m.square_sum_windows.length := by rw [hm']
      have hlt' : m.count + 1 < m.samples_per_100ms :=
        lt_of_le_of_ne hlt hfull
      obtain ⟨ic, iw, ispp⟩ := ih (processSample m x) (h1 ▸ hpos) (by rw [h2, h1]; exact hlt')
      have harith : m.count + 1 + xs.length = m.count + (x :: xs).length := by
        simp only [List.length_cons]
        omega
      exact ⟨by rw [hstep, ic, h2, h1, harith],
        by rw [hstep, iw, h2, h1, h3, harith], by rw [hstep, ispp, h1]⟩

/-! ## Linearity of the filter cascade and of `push` -/

/-- Output of a state-scaled filter on a scaled sample. -/
theorem apply_scale_fst (f : Filter) (α x : ℝ) :
    ((scaleFilter α f).apply (α * x)).1 = α * (f.apply x).1 := by
  simp only [Filter.apply, scaleFilter]
  ring

/-- State evolution of a state-scaled filter on a scaled sample. -/
theorem apply_scale_snd (f : Filter) (α x : ℝ) :
    ((scaleFilter α f).apply (α * x)).2 = scaleFilter α (f.apply x).2 := by
  simp only [Filter.apply, scaleFilter, Filter.mk.injEq, and_true, true_and]
  ring

/-- A scaled compensated sum absorbs a scaled addend. -/
theorem scaleSum_add (s : Sum) (c x : ℝ) :
    (scaleSum c s).add (c * x) = scaleSum c (s.add x) := by
  simp only [Sum.add, scaleSum, Sum.mk.injEq]
  constructor <;> ring

/-- The push loop body commutes with scaling the meter state by `α`
and the sample by `α` (powers scale by `α ^ 2`). -/
theorem processSample_scale (m : ChannelLoudnessMeter) (α x : ℝ) :
    processSample (scaleMeter α m) (α * x) = scaleMeter α (processSample m x) := by
  have hy := apply_scale_fst m.filter_stage1 α x
  have hy2 := apply_scale_snd m.filter_stage1 α x
  have hz : ((scaleFilter α m.filter_stage2).apply
        (((scaleFilter α m.filter_stage1).apply (α * x)).1)).1 =
      α * ((m.filter_stage2.apply ((m.filter_stage1.apply x).1)).1) := by
    rw [hy, apply_scale_fst]
  have hz2 : ((scaleFilter α m.filter_stage2).apply
        (((scaleFilter α m.filter_stage1).apply (α * x)).1)).2 =
      scaleFilter α ((m.filter_stage2.apply ((m.filter_stage1.apply x).1)).2) := by
    rw [hy, apply_scale_snd]
  have hsq : (scaleSum (α ^ 2) m.square_sum).add
        ((((scaleFilter α m.filter_stage2).apply
            (((scaleFilter α m.filter_stage1).apply (α * x)).1)).1) *
          (((scaleFilter α m.filter_stage2).apply
            (((scaleFilter α m.filter_stage1).apply (α * x)).1)).1)) =
      scaleSum (α ^ 2)
        (m.square_sum.add
          ((m.filter_stage2.apply ((m.filter_stage1.apply x).1)).1 *
            (m.filter_stage2.apply ((m.filter_stage1.apply x).1)).1)) := by
    rw [hz]
    have hsq' : α * (m.filter_stage2.apply ((m.filter_stage1.apply x).1)).1 *
        (α * (m.filter_stage2.apply ((m.filter_stage1.apply x).1)).1) =
        α ^ 2 * ((m.filter_stage2.apply ((m.filter_stage1.apply x).1)).1 *
          (m.filter_stage2.apply ((m.filter_stage1.apply x).1)).1) := by
      ring
    rw [hsq']
    exact scaleSum_add _ _ _
  unfold processSample
  by_cases hfull : m.count + 1 = m.samples_per_100ms
  · rw [if_pos (by exact hfull), if_pos hfull]
    simp only [scaleMeter, ChannelLoudnessMeter.mk.injEq, hy2, hz2, hsq, true_and,
      and_true, eq_self_iff_true]
    refine ⟨?_, ?_⟩
    · rw [List.map_append]
      congr 1
      simp only [List.map_cons, List.map_nil, scaleSum]
      congr 1
      ring
    · simp only [scaleSum, Sum.mk.injEq, and_true, true_and]
      ring
  · rw [if_neg (by exact hfull), if_neg hfull]
    simp only [scaleMeter, ChannelLoudnessMeter.mk.injEq, true_and, and_true]
    exact ⟨hy2, hz2, hsq⟩

/-- `push` commutes with scaling: a stream scaled by `α` drives a
scaled meter to the scaled final state. -/
theorem push_scale (xs : List ℝ) :
    ∀ (m : ChannelLoudnessMeter) (α : ℝ),
      (scaleMeter α m).push (xs.map fun s => α * s) = scaleMeter α (m.push xs) := by
  induction xs with
  | nil => intro m α; rfl
  | cons x xs ih =>
    intro m α
    have h1 : (scaleMeter α m).push ((x :: xs).map fun s => α * s) =
        (processSample (scaleMeter α m) (α * x)).push (xs.map fun s => α * s) := rfl
    rw [h1, processSample_scale]
    exact ih (processSample m x) α

/-- A fresh meter is invariant under state scaling (all memories are
zero). -/
theorem scaleMeter_new (α : ℝ) (r : ℕ) :
    scaleMeter α (ChannelLoudnessMeter.new r) = ChannelLoudnessMeter.new r := by
  unfold scaleMeter scaleFilter scaleSum ChannelLoudnessMeter.new
      Filter.high_shelf Filter.high_pass Sum.zero
  simp

/-- The emitted windows of a scaled stream from a fresh meter are the
unscaled windows multiplied by `α ^ 2`. -/
theorem push_new_scale (r : ℕ) (xs : List ℝ) (α : ℝ) :
    ((ChannelLoudnessMeter.new r).push (xs.map fun s => α * s)).square_sum_windows =
      (((ChannelLoudnessMeter.new r).push xs).square_sum_windows).map fun w => α ^ 2 * w := by
  conv_lhs => rw [← scaleMeter_new α r]
  rw [push_scale]
  rfl

/-! ## Sign information about the emitted windows -/

/-- `getD` with default 0 of a list of non-negative values is
non-negative. -/
theorem getD_nonneg (l : List ℝ) (h : ∀ v ∈ l, 0 ≤ v) (k : ℕ) : 0 ≤ l.getD k 0 := by
  rcases lt_or_ge k l.length with hk | hk
  · rw [List.getD_eq_getElem?_getD, List.getElem?_eq_getElem hk]
    exact h _ (List.getElem_mem hk)
  · rw [List.getD_eq_getElem?_getD, List.getElem?_eq_none hk]
    simp

/-- Invariant carried through a `push`: the compensated residue stays 0,
the open sum stays non-negative, every emitted window is non-negative,
and a lower bound `c` on the open sum of a meter that has not yet
emitted a window turns into the bound `c / samples_per_100ms` on the
first emitted window (the head is preserved by later appends). -/
theorem push_preserves_bound (c : ℝ) (xs : List ℝ) :
    ∀ m : ChannelLoudnessMeter,
      m.square_sum.residue = 0 →
      0 ≤ m.square_sum.sum →
      (∀ v ∈ m.square_sum_windows, 0 ≤ v) →
      ((m.square_sum_windows = [] ∧ c ≤ m.square_sum.sum) ∨
        (∃ v t, m.square_sum_windows = v :: t ∧
          c * (1 / (m.samples_per_100ms : ℝ)) ≤ v)) →
      (m.push xs).square_sum.residue = 0 ∧
        0 ≤ (m.push xs).square_sum.sum ∧
        (∀ v ∈ (m.push xs).square_sum_windows, 0 ≤ v) ∧
        (((m.push xs).square_sum_windows = [] ∧ c ≤ (m.push xs).square_sum.sum) ∨
          (∃ v t, (m.push xs).square_sum_windows = v :: t ∧
            c * (1 / (m.samples_per_100ms : ℝ)) ≤ v)) := by
  induction xs with
  | nil =>
    intro m h0 h1 h2 h3
    exact ⟨h0, h1, h2, h3⟩
  | cons x xs ih =>
    intro m h0 h1 h2 h3
    have hstep : m.push (x :: xs) = (processSample m x).push xs := rfl
    set z := (m.filter_stage2.apply ((m.filter_stage1.apply x).1)).1 with hzdef
    have hzsq : 0 ≤ z * z := mul_self_nonneg z
    obtain ⟨hres, hsum⟩ := Sum.add_residue m.square_sum (z * z) h0
    have hspp : (processSample m x).samples_per_100ms = m.samples_per_100ms :=
      processSample_spp m x
    rw [hstep]
    by_cases hfull : m.count + 1 = m.samples_per_100ms
    · have hm' := processSample_full m x hfull
      have hwv : 0 ≤ (m.square_sum.add (z * z)).sum * (1 / (m.samples_per_100ms : ℝ)) := by
        apply mul_nonneg
        · rw [hsum]; linarith
        · positivity
      have hpre : (processSample m x).square_sum.residue = 0 := by
        rw [hm']; exact hres
      have hpre2 : 0 ≤ (processSample m x).square_sum.sum := by
        rw [hm']
      have hpre3 : ∀ v ∈ (processSample m x).square_sum_windows, 0 ≤ v := by
        rw [hm']
        intro v hv
        simp only [List.mem_append, List.mem_singleton] at hv
        rcases hv with hv | hv
        · exact h2 v hv
        · rw [hv]; exact hwv
      have hpre4 : ((processSample m x).square_sum_windows = [] ∧
            c ≤ (processSample m x).square_sum.sum) ∨
          (∃ v t, (processSample m x).square_sum_windows = v :: t ∧
            c * (1 / ((processSample m x).samples_per_100ms : ℝ)) ≤ v) := by
         right
         rw [hspp]
         rcases h3 with ⟨hemp, hc⟩ | ⟨v, t, heq, hv⟩
         · refine ⟨(m.square_sum.add (z * z)).sum * (1 / (m.samples_per_100ms : ℝ)), [],
             ?_, ?_⟩
           · rw [hm', hemp]; rfl
           · exact mul_le_mul_of_nonneg_right (by rw [hsum]; linarith) (by positivity)
         · refine ⟨v, t ++ [(m.square_sum.add (z * z)).sum * (1 / (m.samples_per_100ms : ℝ))],
             ?_, hv⟩
           rw [hm', heq]
           rfl
      obtain ⟨r1, r2, r3, r4⟩ := ih (processSample m x) hpre hpre2 hpre3 hpre4
      rw [hspp] at r4
      exact ⟨r1, r2, r3, r4⟩
    · have hm' := processSample_notfull m x hfull
      have hpre : (processSample m x).square_sum.residue = 0 := by
        rw [hm']; exact hres
      have hpre2 : 0 ≤ (processSample m x).square_sum.sum := by
        rw [hm']
        show 0 ≤ (m.square_sum.add (z * z)).sum
        rw [hsum]; linarith
      have hpre3 : ∀ v ∈ (processSample m x).square_sum_windows, 0 ≤ v := by
        rw [hm']; exact h2
      have hpre4 : ((processSample m x).square_sum_windows = [] ∧
            c ≤ (processSample m x).square_sum.sum) ∨
          (∃ v t, (processSample m x).square_sum_windows = v :: t ∧
            c * (1 / ((processSample m x).samples_per_100ms : ℝ)) ≤ v) := by
         rcases h3 with ⟨hemp, hc⟩ | ⟨v, t, heq, hv⟩
         · left
           refine ⟨by rw [hm']; exact hemp, ?_⟩
           rw [hm']
           show c ≤ (m.square_sum.add (z * z)).sum
           rw [hsum]; linarith
         · right
           rw [hspp]
           exact ⟨v, t, by rw [hm']; exact heq, hv⟩
      obtain ⟨r1, r2, r3, r4⟩ := ih (processSample m x) hpre hpre2 hpre3 hpre4
      rw [hspp] at r4
      exact ⟨r1, r2, r3, r4⟩

/-! ## Evaluating `gated_mean` -/

/-- The Boolean gate test means the strict power comparison. -/
theorem pgt_true_iff (t x : ℝ) : pgt t x = true ↔ t < x := by
  simp [pgt]

/-- `from_lkfs` always produces a strictly positive power. -/
theorem from_lkfs_pos (x : ℝ) : 0 < Power.from_lkfs x :=
  Real.rpow_pos_of_pos (by norm_num) _

/-- Dropping 10 LU divides the power by 10 (for positive powers). -/
theorem from_lkfs_sub_ten (p : ℝ) (hp : 0 < p) :
    Power.from_lkfs (Power.loudness_lkfs p - 10) = p / 10 := by
  unfold Power.from_lkfs Power.loudness_lkfs
  have h : (-0.691 + 10 * Real.logb 10 p - 10 + 0.691) * 0.1 = Real.logb 10 p + (-1) := by
    ring
  rw [h, Real.rpow_add (by norm_num : (0 : ℝ) < 10),
    Real.rpow_logb (by norm_num) (by norm_num) hp, Real.rpow_neg_one]
  ring

/-- On an input with exactly one gating block `D`, `gated_mean` returns
`D` when `D` passes the absolute gate and NaN (`none`) otherwise. -/
theorem gated_mean_single_block (ws : List ℝ) (D : ℝ) (hD : blockPowers ws = [D]) :
    gated_mean ws = if Power.from_lkfs (-70) < D then some D else none := by
  unfold gated_mean
  rw [hD]
  by_cases h : Power.from_lkfs (-70) < D
  · have hDpos : 0 < D := lt_trans (from_lkfs_pos _) h
    have hpgt : pgt (Power.from_lkfs (-70)) D = true := (pgt_true_iff _ _).mpr h
    have hks : (kahanSum [D]).sum = D := by
      rw [kahanSum_sum]
      simp
    have hrel : Power.from_lkfs (Power.loudness_lkfs D - 10) = D / 10 :=
      from_lkfs_sub_ten D hDpos
    have h2 : pgt (D / 10) D = true := by
      rw [pgt_true_iff]
      exact div_lt_self hDpos (by norm_num)
    simp [hpgt, hks, hrel, h2, h]
  · have hpgt : pgt (Power.from_lkfs (-70)) D = false := by
      simp [pgt, h]
    simp [hpgt, h]

/-! ## Scaling of gating blocks and the stereo reduction -/

/-- Gating blocks of a scaled window list are the scaled gating
blocks. -/
theorem blockPowers_map_mul (s : ℝ) :
    ∀ ws : List ℝ,
      blockPowers (ws.map fun w => s * w) = (blockPowers ws).map fun b => s * b
  | a :: b :: e :: d :: rest => by
    have ih := blockPowers_map_mul s (b :: e :: d :: rest)
    simp only [List.map_cons] at ih ⊢
    rw [blockPowers, blockPowers, List.map_cons, ih]
    congr 1
    ring
  | [] => rfl
  | [_] => rfl
  | [_, _] => rfl
  | [_, _, _] => rfl

/-- Reducing a channel with itself doubles each window power. -/
theorem zipWith_add_self (l : List ℝ) :
    List.zipWith (fun a b => a + b) l l = l.map fun x => 2 * x := by
  induction l with
  | nil => rfl
  | cons a l ih => simp [ih, two_mul]

/-- Doubling after scaling by `α ^ 2` is one scale by `2 * α ^ 2`. -/
theorem map_two_map_sq (α : ℝ) (l : List ℝ) :
    (l.map fun x => α ^ 2 * x).map (fun x => 2 * x) = l.map fun x => 2 * α ^ 2 * x := by
  rw [List.map_map]
  apply List.map_congr_left
  intro a _
  simp only [Function.comp_apply]
  ring

/-- Reducing any channel list with itself succeeds. -/
theorem reduce_stereo_self (l : List ℝ) :
    reduce_stereo l l = some (List.zipWith (fun a b => a + b) l l) := by
  simp [reduce_stereo]

/-! ## The first cascade output of a fresh meter -/

/-- The high-shelf stage starts with zeroed memory. -/
theorem high_shelf_state (fs : ℝ) :
    (Filter.high_shelf fs).x1 = 0 ∧ (Filter.high_shelf fs).x2 = 0 ∧
      (Filter.high_shelf fs).y1 = 0 ∧ (Filter.high_shelf fs).y2 = 0 :=
  ⟨rfl, rfl, rfl, rfl⟩

/-- The first sample out of a fresh high-shelf stage driven with 1 is
its `b0` coefficient. -/
theorem high_shelf_apply_one (fs : ℝ) :
    ((Filter.high_shelf fs).apply 1).1 = (Filter.high_shelf fs).b0 := by
  obtain ⟨h1, h2, h3, h4⟩ := high_shelf_state fs
  simp [Filter.apply, h1, h2, h3, h4]

/-- The first sample passes through a fresh high-pass stage unchanged
(its `b0` is 1 and its memory is zero). -/
theorem high_pass_apply_first (fs y : ℝ) :
    ((Filter.high_pass fs).apply y).1 = y := by
  have hb0 : (Filter.high_pass fs).b0 = 1 := rfl
  have h1 : (Filter.high_pass fs).x1 = 0 := rfl
  have h2 : (Filter.high_pass fs).x2 = 0 := rfl
  have h3 : (Filter.high_pass fs).y1 = 0 := rfl
  have h4 : (Filter.high_pass fs).y2 = 0 := rfl
  simp [Filter.apply, hb0, h1, h2, h3, h4]

/-- At 48 kHz the high-shelf prewarp constant `K = tan(π f0 / fs)` is
strictly positive: the angle lies in `(0, π/2)`. -/
theorem tan_shelf_48000_pos :
    0 < Real.tan (Real.pi * 1681.9744509555319 / ((48000 : ℕ) : ℝ)) := by
  have hc : ((48000 : ℕ) : ℝ) = 48000 := by norm_num
  rw [hc]
  apply Real.tan_pos_of_pos_of_lt_pi_div_two
  · positivity
  · calc Real.pi * 1681.9744509555319 / 48000
        = Real.pi * (1681.9744509555319 / 48000) := by ring
      _ < Real.pi * (1 / 2) := by
          refine mul_lt_mul_of_pos_left (by norm_num) Real.pi_pos
      _ = Real.pi / 2 := by ring

/-- The `b0` coefficient of the high-shelf stage is strictly positive
whenever the prewarp constant is. -/
theorem high_shelf_b0_pos (fs : ℝ)
    (hk : 0 < Real.tan (Real.pi * 1681.9744509555319 / fs)) :
    0 < (Filter.high_shelf fs).b0 := by
  have hb0 : (Filter.high_shelf fs).b0 =
      ((10 : ℝ) ^ ((3.99984385397 : ℝ) / 20) +
        ((10 : ℝ) ^ ((3.99984385397 : ℝ) / 20)) ^ (0.499666774155 : ℝ) *
          Real.tan (Real.pi * 1681.9744509555319 / fs) / 0.7071752369554193 +
        Real.tan (Real.pi * 1681.9744509555319 / fs) *
          Real.tan (Real.pi * 1681.9744509555319 / fs)) /
      (1 + Real.tan (Real.pi * 1681.9744509555319 / fs) / 0.7071752369554193 +
        Real.tan (Real.pi * 1681.9744509555319 / fs) *
          Real.tan (Real.pi * 1681.9744509555319 / fs)) := rfl
  rw [hb0]
  have hvh : 0 < (10 : ℝ) ^ ((3.99984385397 : ℝ) / 20) :=
    Real.rpow_pos_of_pos (by norm_num) _
  have hvb : 0 < ((10 : ℝ) ^ ((3.99984385397 : ℝ) / 20)) ^ (0.499666774155 : ℝ) :=
    Real.rpow_pos_of_pos hvh _
  have hkk : 0 < Real.tan (Real.pi * 1681.9744509555319 / fs) *
      Real.tan (Real.pi * 1681.9744509555319 / fs) := mul_pos hk hk
  apply div_pos
  · have h1 : 0 < ((10 : ℝ) ^ ((3.99984385397 : ℝ) / 20)) ^ (0.499666774155 : ℝ) *
        Real.tan (Real.pi * 1681.9744509555319 / fs) / 0.7071752369554193 :=
      div_pos (mul_pos hvb hk) (by norm_num)
    linarith
  · have h2 : 0 < Real.tan (Real.pi * 1681.9744509555319 / fs) / 0.7071752369554193 :=
      div_pos hk (by norm_num)
    linarith

/-! ## Scaling behaviour of `gated_mean` -/

/-- Scaling both sides of the strict power comparison by a positive
factor does not change it. -/
theorem pgt_mul_left (t b c : ℝ) (hc : 0 < c) : pgt (c * t) (c * b) = pgt t b := by
  unfold pgt
  simp [mul_lt_mul_left hc]

/-- A filter over a scaled list agrees with the scaled filtered list
whenever the two tests agree pointwise. -/
theorem filter_map_eq (p q : ℝ → Bool) (c : ℝ) (l : List ℝ)
    (h : ∀ b ∈ l, q (c * b) = p b) :
    (l.map fun x => c * x).filter q = (l.filter p).map fun x => c * x := by
  induction l with
  | nil => rfl
  | cons a l ih =>
    simp only [List.map_cons, List.filter_cons]
    rw [h a (List.mem_cons_self a l)]
    by_cases hb : p a = true
    · rw [if_pos hb, if_pos hb, List.map_cons,
        ih fun b hbl => h b (List.mem_cons_of_mem a hbl)]
    · rw [if_neg hb, if_neg hb, ih fun b hbl => h b (List.mem_cons_of_mem a hbl)]

/-- Sum of a scaled list. -/
theorem sum_map_mul (c : ℝ) (l : List ℝ) : (l.map fun x => c * x).sum = c * l.sum := by
  induction l with
  | nil => simp
  | cons a l ih => simp [ih, mul_add]

/-- Everything surviving a strictly positive power gate sums to a
strictly positive total. -/
theorem filter_pgt_sum_pos (t : ℝ) (ht : 0 < t) (l : List ℝ)
    (hne : l.filter (pgt t) ≠ []) :
    0 < (l.filter (pgt t)).sum := by
  apply List.sum_pos
  · intro x hx
    have hmem := (List.mem_filter.mp hx).2
    have hlt := (pgt_true_iff t x).mp hmem
    linarith
  · exact hne

/-- LKFS of a positively scaled power. -/
theorem loudness_lkfs_mul (c p : ℝ) (hc : 0 < c) (hp : 0 < p) :
    Power.loudness_lkfs (c * p) = Power.loudness_lkfs p + 10 * Real.logb 10 c := by
  unfold Power.loudness_lkfs
  rw [Real.logb_mul hc.ne' hp.ne']
  ring

/-- The relative threshold scales with the absolute-gated mean. -/
theorem from_lkfs_shift (p c : ℝ) (hc : 0 < c) (hp : 0 < p) :
    Power.from_lkfs (Power.loudness_lkfs (c * p) - 10) =
      c * Power.from_lkfs (Power.loudness_lkfs p - 10) := by
  rw [loudness_lkfs_mul c p hc hp]
  unfold Power.from_lkfs
  have h : (Power.loudness_lkfs p + 10 * Real.logb 10 c - 10 + 0.691) * 0.1 =
      (Power.loudness_lkfs p - 10 + 0.691) * 0.1 + Real.logb 10 c := by
    ring
  rw [h, Real.rpow_add (by norm_num : (0 : ℝ) < 10),
    Real.rpow_logb (by norm_num) (by norm_num) hc]
  ring

/-- Scaling by `α ^ 2` and doubling commute on a window list. -/
theorem map_sq_two_comm (α : ℝ) (l : List ℝ) :
    (l.map fun x => α ^ 2 * x).map (fun x => 2 * x) =
      (l.map fun x => 2 * x).map fun x => α ^ 2 * x := by
  rw [List.map_map, List.map_map]
  apply List.map_congr_left
  intro a _
  simp only [Function.comp_apply]
  ring

/-- A real result of `gated_mean` is strictly positive: it is the mean
of blocks that survived the strictly positive relative threshold. -/
theorem gated_mean_pos (V : List ℝ) (p : ℝ) (h : gated_mean V = some p) : 0 < p := by
  simp only [gated_mean] at h
  set s1 := (blockPowers V).filter (pgt (Power.from_lkfs (-70))) with hs1def
  by_cases h1 : s1.length = 0
  · rw [if_pos h1] at h
    exact absurd h (by simp)
  · rw [if_neg h1] at h
    set rel := Power.from_lkfs (Power.loudness_lkfs
      ((kahanSum s1).sum / (s1.length : ℝ)) - 10) with hreldef
    set s2 := s1.filter (pgt rel) with hs2def
    by_cases h2 : s2.length = 0
    · rw [if_pos h2] at h
      exact absurd h (by simp)
    · rw [if_neg h2] at h
      have hp : (kahanSum s2).sum / (s2.length : ℝ) = p := Option.some.inj h
      have hrelpos : 0 < rel := from_lkfs_pos _
      have hsumpos : 0 < (kahanSum s2).sum := by
        rw [kahanSum_sum]
        apply List.sum_pos
        · intro x hx
          rw [hs2def] at hx
          have hmem := (List.mem_filter.mp hx).2
          have := (pgt_true_iff rel x).mp hmem
          linarith
        · intro hxe
          rw [hxe] at h2
          exact h2 rfl
      have hlenpos : (0 : ℝ) < (s2.length : ℝ) := by
        exact_mod_cast Nat.pos_of_ne_zero h2
      rw [← hp]
      exact div_pos hsumpos hlenpos

/-- Scaling a window list by a positive factor scales the gated mean by
the same factor, provided the absolute gate keeps the same blocks. -/
theorem gated_mean_scale (V : List ℝ) (c : ℝ) (hc : 0 < c)
    (hgate : ∀ b ∈ blockPowers V,
      pgt (Power.from_lkfs (-70)) (c * b) = pgt (Power.from_lkfs (-70)) b) :
    gated_mean (V.map fun x => c * x) = (gated_mean V).map fun p => c * p := by
  have hfilter1 : (blockPowers (V.map fun x => c * x)).filter (pgt (Power.from_lkfs (-70))) =
      ((blockPowers V).filter (pgt (Power.from_lkfs (-70)))).map fun x => c * x := by
    rw [blockPowers_map_mul]
    exact filter_map_eq _ _ c _ hgate
  simp only [gated_mean]
  rw [hfilter1]
  set s1 := (blockPowers V).filter (pgt (Power.from_lkfs (-70))) with hs1def
  have hlenmap : (s1.map fun x => c * x).length = s1.length := by simp
  by_cases hempty : s1.length = 0
  · rw [if_pos (by rw [hlenmap]; exact hempty), if_pos hempty]
    rfl
  · rw [if_neg (by rw [hlenmap]; exact hempty), if_neg hempty]
    have hs1ne : s1 ≠ [] := by
      intro hx
      rw [hx] at hempty
      exact hempty rfl
    have hp1sum : (kahanSum (s1.map fun x => c * x)).sum = c * (kahanSum s1).sum := by
      rw [kahanSum_sum, kahanSum_sum, sum_map_mul]
    have hp1pos : 0 < (kahanSum s1).sum / (s1.length : ℝ) := by
      rw [kahanSum_sum]
      apply div_pos
      · apply filter_pgt_sum_pos (Power.from_lkfs (-70)) (from_lkfs_pos _) (blockPowers V)
        rw [← hs1def]
        exact hs1ne
      · exact_mod_cast Nat.pos_of_ne_zero hempty
    have hP1' : (kahanSum (s1.map fun x => c * x)).sum /
        (((s1.map fun x => c * x)).length : ℝ) =
        c * ((kahanSum s1).sum / (s1.length : ℝ)) := by
      rw [hp1sum, hlenmap]
      ring
    rw [hP1']
    rw [from_lkfs_shift _ c hc hp1pos]
    rw [filter_map_eq _ _ c _ fun b _ => pgt_mul_left _ b c hc]
    set s2 := s1.filter (pgt (Power.from_lkfs (Power.loudness_lkfs
      ((kahanSum s1).sum / (s1.length : ℝ)) - 10))) with hs2def
    have hs2len : (s2.map fun x => c * x).length = s2.length := by simp
    by_cases h2 : s2.length = 0
    · rw [if_pos (by rw [hs2len]; exact h2), if_pos h2]
      rfl
    · rw [if_neg (by rw [hs2len]; exact h2), if_neg h2]
      have hs2sum : (kahanSum (s2.map fun x => c * x)).sum = c * (kahanSum s2).sum := by
        rw [kahanSum_sum, kahanSum_sum, sum_map_mul]
      rw [hs2sum, hs2len]
      show some _ = some (c * ((kahanSum s2).sum / (s2.length : ℝ)))
      congr 1
      ring

/-- Unfolding the stereo-duplicated pipeline: the channel windows are
doubled by `reduce_stereo` and then gated. -/
theorem integratedLkfs_eval (r : ℕ) (samples : List ℝ) :
    integratedLkfs r samples =
      (gated_mean ((((ChannelLoudnessMeter.new r).push samples).square_sum_windows).map
        fun x => 2 * x)).map Power.loudness_lkfs := by
  unfold integratedLkfs
  rw [reduce_stereo_self, zipWith_add_self]
  rfl

/-! ## Claim C1: sample-rate validation in `ChannelLoudnessMeter::new` -/

/-- C1 counterexample: the claim says `ChannelLoudnessMeter::new` rejects
every sample rate below 10 Hz at construction; in the source `new` is a
total function with no validation, so 5 Hz is accepted and yields a
meter whose `samples_per_100ms` is 0 (no sample ever fits a window). -/
theorem new_accepts_5_hz :
    ¬ 0 < (ChannelLoudnessMeter.new 5).samples_per_100ms := by
  show ¬ 0 < 5 / 10
  decide

/-- C1 (amended): `ChannelLoudnessMeter::new` accepts every sample rate;
it stores `samples_per_100ms = sample_rate_hz / 10`, which is positive
exactly when `sample_rate_hz ≥ 10` (and 0 below 10 Hz). -/
theorem new_samples_per_100ms (sample_rate_hz : ℕ) :
    (ChannelLoudnessMeter.new sample_rate_hz).samples_per_100ms = sample_rate_hz / 10 ∧
      (0 < (ChannelLoudnessMeter.new sample_rate_hz).samples_per_100ms ↔ 10 ≤ sample_rate_hz) := by
  refine ⟨rfl, ?_⟩
  show 0 < sample_rate_hz / 10 ↔ _
  exact Nat.div_pos_iff (by norm_num)

/-! ## Claim C3: streaming equivalence of `push` -/

/-- C3: feeding any partition of a sample stream chunk by chunk leaves
the meter in exactly the state produced by one `push` of the whole
stream; in particular the emitted `Power` window sequences agree
element-wise (exactly, not merely within 1 ulp, since the same
operations run in the same order). -/
theorem push_chunked_eq_push_whole (m : ChannelLoudnessMeter) (chunks : List (List ℝ)) :
    chunks.foldl ChannelLoudnessMeter.push m = m.push chunks.flatten ∧
      (chunks.foldl ChannelLoudnessMeter.push m).square_sum_windows =
        (m.push chunks.flatten).square_sum_windows :=
  ⟨push_flatten m chunks, by rw [push_flatten m chunks]⟩

/-! ## Claim C5: window completion inside `push` -/

/-- C5: when the open-window count reaches `samples_per_100ms` during
`push`, the loop body appends `Power(sum.sum / samples_per_100ms)` (the
sum taken after accumulating the current sample), zeroes the principal
sum, keeps the residue of the compensated sum exactly as it was after
the final `add`, and resets the count to 0. -/
theorem processSample_window_complete (m : ChannelLoudnessMeter) (x : ℝ)
    (hpos : 0 < m.samples_per_100ms)
    (hfull : m.count + 1 = m.samples_per_100ms) :
    (processSample m x).square_sum_windows =
        m.square_sum_windows ++
          [(m.square_sum.add
              ((m.filter_stage2.apply (m.filter_stage1.apply x).1).1 *
                (m.filter_stage2.apply (m.filter_stage1.apply x).1).1)).sum /
            (m.samples_per_100ms : ℝ)] ∧
      (processSample m x).square_sum.sum = 0 ∧
      (processSample m x).square_sum.residue =
        (m.square_sum.add
            ((m.filter_stage2.apply (m.filter_stage1.apply x).1).1 *
              (m.filter_stage2.apply (m.filter_stage1.apply x).1).1)).residue ∧
      (processSample m x).count = 0 := by
  rw [processSample_full m x hfull]
  refine ⟨?_, rfl, rfl, rfl⟩
  rw [mul_one_div]

/-- Witness for C5: a window of size 1 completes on the first sample. -/
theorem processSample_window_complete_witness :
    let M : ChannelLoudnessMeter :=
      { samples_per_100ms := 1
        filter_stage1 := ⟨0, 0, 0, 0, 0, 0, 0, 0, 0⟩
        filter_stage2 := ⟨0, 0, 0, 0, 0, 0, 0, 0, 0⟩
        square_sum_windows := []
        count := 0
        square_sum := Sum.zero }
    0 < M.samples_per_100ms ∧ M.count + 1 = M.samples_per_100ms ∧
      (processSample M 0).count = 0 := by
  refine ⟨by decide, by decide, ?_⟩
  exact (processSample_window_complete _ 0 (by decide) (by decide)).2.2.2

/-! ## Claim C6: `reduce_stereo` -/

/-- C6: for equal-length channels `reduce_stereo` returns the sequence
of the same length whose k-th element is `left[k] + right[k]` (the
unnormalized unit-weight sum); mismatched lengths are rejected (the
`assert_eq!` panic, embedded as `none`). -/
theorem reduce_stereo_spec (left right : List ℝ) :
    (left.length = right.length →
      reduce_stereo left right = some (List.zipWith (fun l r => l + r) left right) ∧
        (List.zipWith (fun l r => l + r) left right).length = left.length ∧
        ∀ (k : ℕ) (hkl : k < left.length) (hkr : k < right.length)
          (hkz : k < (List.zipWith (fun l r => l + r) left right).length),
          (List.zipWith (fun l r => l + r) left right)[k] = left[k] + right[k]) ∧
    (left.length ≠ right.length → reduce_stereo left right = none) := by
  constructor
  · intro h
    refine ⟨by simp [reduce_stereo, h], by simp [h], ?_⟩
    intro k hkl hkr hkz
    exact List.getElem_zipWith
  · intro h
    simp [reduce_stereo, h]

/-- Witness for C6 at concrete one-element channels. -/
theorem reduce_stereo_spec_witness :
    [(1 : ℝ)].length = [(2 : ℝ)].length ∧
      reduce_stereo [(1 : ℝ)] [(2 : ℝ)] =
        some (List.zipWith (fun l r => l + r) [(1 : ℝ)] [(2 : ℝ)]) :=
  ⟨rfl, ((reduce_stereo_spec [(1 : ℝ)] [(2 : ℝ)]).1 rfl).1⟩

/-! ## Claim C7: `Filter::apply` -/

/-- C7: `Filter::apply` returns
`y0 = b0*x0 + b1*x1 + b2*x2 - a1*y1 - a2*y2` computed from the state
before the call, and the updated state keeps the coefficients and
shifts `x2 ← x1`, `x1 ← x0`, `y2 ← y1`, `y1 ← y0`; the function is
total (no error conditions). -/
theorem filter_apply_spec (f : Filter) (x0 : ℝ) :
    (f.apply x0).1 =
        f.b0 * x0 + f.b1 * f.x1 + f.b2 * f.x2 - f.a1 * f.y1 - f.a2 * f.y2 ∧
      (f.apply x0).2 =
        { f with
          x2 := f.x1
          x1 := x0
          y2 := f.y1
          y1 := f.b0 * x0 + f.b1 * f.x1 + f.b2 * f.x2 - f.a1 * f.y1 - f.a2 * f.y2 } := by
  constructor
  · simp [Filter.apply]
  · simp [Filter.apply]

/-! ## Claim C10: meter bookkeeping invariant -/

/-- C10: for a meter built by `new` with `samples_per_100ms > 0`, after
any sequence of `push` calls the open-window count stays strictly below
`samples_per_100ms` and the number of emitted windows is the total
number of samples pushed so far divided (integer division) by
`samples_per_100ms`. -/
theorem meter_invariant (sample_rate_hz : ℕ) (chunks : List (List ℝ))
    (hpos : 0 < (ChannelLoudnessMeter.new sample_rate_hz).samples_per_100ms) :
    (chunks.foldl ChannelLoudnessMeter.push (ChannelLoudnessMeter.new sample_rate_hz)).count
        < (ChannelLoudnessMeter.new sample_rate_hz).samples_per_100ms ∧
      (chunks.foldl ChannelLoudnessMeter.push
            (ChannelLoudnessMeter.new sample_rate_hz)).square_sum_windows.length
        = chunks.flatten.length
            / (ChannelLoudnessMeter.new sample_rate_hz).samples_per_100ms := by
  rw [push_flatten]
  obtain ⟨hc, hw, _⟩ :=
    push_count_windows chunks.flatten (ChannelLoudnessMeter.new sample_rate_hz) hpos hpos
  constructor
  · rw [hc]
    exact Nat.mod_lt _ hpos
  · rw [hw]
    simp [ChannelLoudnessMeter.new]

/-- Witness for C10 at 48000 Hz with no chunks pushed. -/
theorem meter_invariant_witness :
    0 < (ChannelLoudnessMeter.new 48000).samples_per_100ms ∧
      (([] : List (List ℝ)).foldl ChannelLoudnessMeter.push
            (ChannelLoudnessMeter.new 48000)).count
        < (ChannelLoudnessMeter.new 48000).samples_per_100ms :=
  ⟨by decide, (meter_invariant 48000 [] (by decide)).1⟩

/-! ## Claim C8: LKFS round-trip -/

/-- C8: with `loudness_lkfs p = -0.691 + 10 * logb 10 p` and
`from_lkfs x = 10 ^ ((x + 0.691) * 0.1)` as in the source, the two
conversions are mutually inverse: exactly so over the reals, which is
the claim's 1-ulp round-trip with the f32 rounding abstracted away. -/
theorem power_lkfs_roundtrip (p x : ℝ) (hp : 0 < p) :
    Power.from_lkfs (Power.loudness_lkfs p) = p ∧
      Power.loudness_lkfs (Power.from_lkfs x) = x := by
  constructor
  · unfold Power.from_lkfs Power.loudness_lkfs
    have h1 : (-0.691 + 10 * Real.logb 10 p + 0.691) * 0.1 = Real.logb 10 p := by ring
    rw [h1]
    exact Real.rpow_logb (by norm_num) (by norm_num) hp
  · unfold Power.from_lkfs Power.loudness_lkfs
    rw [Real.logb_rpow (by norm_num) (by norm_num)]
    ring

/-- Witness for C8 at `p = 1`, `x = 0`. -/
theorem power_lkfs_roundtrip_witness :
    (0 : ℝ) < 1 ∧
      (Power.from_lkfs (Power.loudness_lkfs 1) = 1 ∧
        Power.loudness_lkfs (Power.from_lkfs 0) = 0) :=
  ⟨by norm_num, power_lkfs_roundtrip 1 0 (by norm_num)⟩

/-! ## Claim C4: structure of `gated_mean` -/

/-- C4: on at least four windows, `gated_mean` forms exactly the block
powers `B k = 0.25 * (W k + W (k+1) + W (k+2) + W (k+3))` for
`k ∈ [0, n-4]`, keeps those strictly above `Power.from_lkfs (-70)`,
takes their mean over the survivor count, keeps the blocks strictly
above `Power.from_lkfs (loudness_lkfs P1 - 10)`, and returns the mean
of that second set over its own survivor count (not over `n`): the
source refines the spec-side description `specGatedMean`. -/
theorem gated_mean_eq_spec (ws : List ℝ) (h : 4 ≤ ws.length) :
    gated_mean ws = specGatedMean ws := by
  unfold gated_mean specGatedMean
  simp only [blockPowers_eq, kahanSum_sum]

/-- Witness for C4 on four concrete windows. -/
theorem gated_mean_eq_spec_witness :
    4 ≤ ([0, 0, 0, 0] : List ℝ).length ∧
      gated_mean [0, 0, 0, 0] = specGatedMean [0, 0, 0, 0] :=
  ⟨by simp, gated_mean_eq_spec [0, 0, 0, 0] (by simp)⟩

/-! ## Claim C2: `gated_mean` on empty gating sets -/

/-- C2 counterexample: the claim says `gated_mean` returns a
well-defined sentinel `Power` (such as `Power(0)`, LKFS `-∞`) when the
gating set is empty.  On the empty input (zero windows, so no gating
block) the source divides `0.0` by a zero count, which in `f32` is
`0.0 / 0.0 = NaN` — embedded as `none`, not a real sentinel value. -/
theorem gated_mean_empty_input : gated_mean ([] : List ℝ) = none := by
  simp [gated_mean, blockPowers]

/-- C2 (amended): `gated_mean` is total — it never panics — and on
every input whose gating set is empty (fewer than four windows, or no
block surviving the absolute gate) it returns `Power(0.0/0.0)`, the f32
NaN (`none` in the embedding, LKFS also NaN), rather than `Power(0)`. -/
theorem gated_mean_empty_gating_set (ws : List ℝ)
    (h : ws.length < 4 ∨
      (blockPowers ws).filter (pgt (Power.from_lkfs (-70))) = []) :
    gated_mean ws = none := by
  unfold gated_mean
  rcases h with h | h
  · rw [blockPowers_short ws h]
    simp
  · simp [h]

/-- Witness for C2 (amended) on a single window (fewer than four). -/
theorem gated_mean_empty_gating_set_witness :
    (([(1 : ℝ)] : List ℝ).length < 4 ∨
        (blockPowers [(1 : ℝ)]).filter (pgt (Power.from_lkfs (-70))) = []) ∧
      gated_mean [(1 : ℝ)] = none :=
  ⟨Or.inl (by simp), gated_mean_empty_gating_set [(1 : ℝ)] (Or.inl (by simp))⟩

/-! ## Claim C9: scale invariance of the integrated loudness -/

/-- C9 counterexample: the claim says scaling every input sample by any
`α > 0` shifts the integrated LKFS of the full pipeline by exactly
`20·log₁₀ α`.  This fails because the absolute −70 LKFS gate has a
fixed threshold: for the 48 kHz probe stream with a unit impulse (four
100 ms windows, a single gating block of positive power `B`) one can
pick a small `α` that pushes the block below the absolute gate (result:
NaN, i.e. `none`) and a large `α` that keeps it above (result: a real
LKFS value), and no single value of the unscaled loudness is consistent
with both under the claimed shift law. -/
theorem integrated_lkfs_scaling_fails :
    ¬ (∀ (samples : List ℝ) (α : ℝ), 0 < α →
        integratedLkfs 48000 (samples.map fun s => α * s) =
          (integratedLkfs 48000 samples).map fun l => l + 20 * Real.logb 10 α) := by
  intro hclaim
  set S : List ℝ := 1 :: List.replicate 19199 0 with hSdef
  set M0 := ChannelLoudnessMeter.new 48000 with hM0
  have hspp : M0.samples_per_100ms = 4800 := rfl
  have hcount0 : M0.count = 0 := rfl
  have hwin0 : M0.square_sum_windows = [] := rfl
  have hpos : 0 < M0.samples_per_100ms := by rw [hspp]; norm_num
  have hSlen : S.length = 19200 := by
    rw [hSdef, List.length_cons, List.length_replicate]
  obtain ⟨-, hwlen, -⟩ := push_count_windows S M0 hpos (by rw [hcount0]; exact hpos)
  set w : List ℝ := (M0.push S).square_sum_windows with hwdef
  have hlen4 : w.length = 4 := by
    rw [hwdef, hwlen, hwin0, hcount0, hSlen, hspp]
    norm_num
  -- the first cascade output of the probe is the positive high-shelf b0
  have hfull1 : ¬ (M0.count + 1 = M0.samples_per_100ms) := by
    rw [hcount0, hspp]
    norm_num
  have hm1 := processSample_notfull M0 1 hfull1
  set z0 : ℝ := (M0.filter_stage2.apply ((M0.filter_stage1.apply 1).1)).1 with hz0def
  have hz0 : z0 = (Filter.high_shelf ((48000 : ℕ) : ℝ)).b0 := by
    rw [hz0def]
    show ((Filter.high_pass ((48000 : ℕ) : ℝ)).apply
        (((Filter.high_shelf ((48000 : ℕ) : ℝ)).apply 1).1)).1 = _
    rw [high_pass_apply_first, high_shelf_apply_one]
  have hz0pos : 0 < z0 := by
    rw [hz0]
    exact high_shelf_b0_pos _ tan_shelf_48000_pos
  set m1 := processSample M0 1 with hm1def
  have hz00 : M0.square_sum.residue = 0 := rfl
  have hsum00 : M0.square_sum.sum = 0 := rfl
  obtain ⟨hres1, hsum1⟩ := Sum.add_residue M0.square_sum (z0 * z0) hz00
  have hm1res : m1.square_sum.residue = 0 := by
    rw [hm1]
    exact hres1
  have hm1sum : m1.square_sum.sum = z0 * z0 := by
    rw [hm1]
    show (M0.square_sum.add (z0 * z0)).sum = z0 * z0
    rw [hsum1, hsum00, zero_add]
  have hm1win : m1.square_sum_windows = [] := by
    rw [hm1]
    exact hwin0
  have hm1spp : m1.samples_per_100ms = 4800 := by
    rw [hm1def, processSample_spp, hspp]
  -- push the trailing silence through the invariant
  obtain ⟨-, -, hwnn, hdisj⟩ := push_preserves_bound (z0 * z0) (List.replicate 19199 0) m1
    hm1res (by rw [hm1sum]; exact mul_self_nonneg z0)
    (by rw [hm1win]; intro v hv; simp at hv)
    (Or.inl ⟨hm1win, le_of_eq hm1sum.symm⟩)
  have hw_eq_push : (m1.push (List.replicate 19199 0)).square_sum_windows = w := by
    rw [hwdef, hm1def, hSdef, push_cons]
  rw [hw_eq_push] at hwnn hdisj
  have hwne : w ≠ [] := by
    intro hcon
    rw [hcon] at hlen4
    simp at hlen4
  rcases hdisj with ⟨hemp, -⟩ | ⟨v, t, hvt, hv⟩
  · exact hwne hemp
  rw [hm1spp] at hv
  -- the single gating block of the probe
  set B : ℝ := 0.25 * (w.getD 0 0 + w.getD 1 0 + w.getD 2 0 + w.getD 3 0) with hBdef
  have hblocks : blockPowers w = [B] := by
    rw [blockPowers_eq w, hlen4]
    have hr1 : List.range 1 = [0] := rfl
    simp [hBdef, hr1]
  have hg0 : w.getD 0 0 = v := by
    rw [hvt]
    rfl
  have hB_pos : 0 < B := by
    have h1 : 0 ≤ w.getD 1 0 := getD_nonneg w hwnn 1
    have h2 : 0 ≤ w.getD 2 0 := getD_nonneg w hwnn 2
    have h3 : 0 ≤ w.getD 3 0 := getD_nonneg w hwnn 3
    have hvpos : 0 < v :=
      lt_of_lt_of_le (mul_pos (mul_pos hz0pos hz0pos) (by norm_num)) hv
    rw [hBdef, hg0]
    linarith
  set T : ℝ := Power.from_lkfs (-70) with hTdef
  have hT : 0 < T := from_lkfs_pos _
  -- evaluating the pipeline on the scaled probe
  have heval : ∀ α : ℝ, integratedLkfs 48000 (S.map fun s => α * s) =
      if T < 2 * α ^ 2 * B then some (Power.loudness_lkfs (2 * α ^ 2 * B)) else none := by
    intro α
    have hwmap : ((ChannelLoudnessMeter.new 48000).push (S.map fun s => α * s)).square_sum_windows =
        w.map fun x => α ^ 2 * x := by
      rw [push_new_scale]
    rw [integratedLkfs_eval, hwmap, map_two_map_sq]
    have hblocks' : blockPowers (w.map fun x => 2 * α ^ 2 * x) = [2 * α ^ 2 * B] := by
      rw [blockPowers_map_mul, hblocks]
      rfl
    rw [gated_mean_single_block _ _ hblocks']
    by_cases hcase : T < 2 * α ^ 2 * B
    · rw [if_pos hcase, if_pos hcase]
      rfl
    · rw [if_neg hcase, if_neg hcase]
      rfl
  -- a small scale: the block falls below the absolute gate
  have h8B : (0 : ℝ) < 8 * B := by linarith
  set α1 : ℝ := Real.sqrt (T / (8 * B)) with hα1def
  have hα1pos : 0 < α1 := Real.sqrt_pos.mpr (div_pos hT h8B)
  have hα1sq : α1 ^ 2 = T / (8 * B) := Real.sq_sqrt (le_of_lt (div_pos hT h8B))
  have hD1 : 2 * α1 ^ 2 * B = T / 4 := by
    rw [hα1sq]
    field_simp
    ring
  have hnot1 : ¬ (T < 2 * α1 ^ 2 * B) := by
    rw [hD1]
    linarith
  have he1 : integratedLkfs 48000 (S.map fun s => α1 * s) = none := by
    rw [heval α1, if_neg hnot1]
  have hc1 := hclaim S α1 hα1pos
  rw [he1] at hc1
  have hS_none : integratedLkfs 48000 S = none := Option.map_eq_none'.mp hc1.symm
  -- a large scale: the block stays above the absolute gate
  set α2 : ℝ := Real.sqrt (T / B) with hα2def
  have hα2pos : 0 < α2 := Real.sqrt_pos.mpr (div_pos hT hB_pos)
  have hα2sq : α2 ^ 2 = T / B := Real.sq_sqrt (le_of_lt (div_pos hT hB_pos))
  have hD2 : 2 * α2 ^ 2 * B = 2 * T := by
    rw [hα2sq]
    field_simp
  have hlt2 : T < 2 * α2 ^ 2 * B := by
    rw [hD2]
    linarith
  have he2 : integratedLkfs 48000 (S.map fun s => α2 * s) =
      some (Power.loudness_lkfs (2 * α2 ^ 2 * B)) := by
    rw [heval α2, if_pos hlt2]
  have hc2 := hclaim S α2 hα2pos
  rw [he2, hS_none] at hc2
  simp at hc2

/-- C9 (amended): scaling the input by `α > 0` shifts the integrated
LKFS by exactly `20·log₁₀ α` provided the set of gating blocks passed
by the fixed absolute −70 LKFS gate is unchanged by the scaling; the
relative gate, being derived from the data, is scale-covariant
unconditionally, and without the proviso the law fails (see the
counterexample). -/
theorem integrated_lkfs_scaling (sample_rate_hz : ℕ) (samples : List ℝ) (α : ℝ)
    (hα : 0 < α)
    (hgate : ∀ b ∈ blockPowers
        (List.zipWith (fun a b => a + b)
          (((ChannelLoudnessMeter.new sample_rate_hz).push samples).square_sum_windows)
          (((ChannelLoudnessMeter.new sample_rate_hz).push samples).square_sum_windows)),
      pgt (Power.from_lkfs (-70)) (α ^ 2 * b) = pgt (Power.from_lkfs (-70)) b) :
    integratedLkfs sample_rate_hz (samples.map fun s => α * s) =
      (integratedLkfs sample_rate_hz samples).map fun l => l + 20 * Real.logb 10 α := by
  rw [zipWith_add_self] at hgate
  have hwmap : ((ChannelLoudnessMeter.new sample_rate_hz).push
      (samples.map fun s => α * s)).square_sum_windows =
      (((ChannelLoudnessMeter.new sample_rate_hz).push samples).square_sum_windows).map
        fun x => α ^ 2 * x := push_new_scale sample_rate_hz samples α
  rw [integratedLkfs_eval, integratedLkfs_eval, hwmap, map_sq_two_comm]
  rw [gated_mean_scale _ (α ^ 2) (by positivity) hgate]
  cases hgm : gated_mean ((((ChannelLoudnessMeter.new sample_rate_hz).push
      samples).square_sum_windows).map fun x => 2 * x) with
  | none => rfl
  | some p =>
    have hppos : 0 < p := gated_mean_pos _ p hgm
    show some (Power.loudness_lkfs (α ^ 2 * p)) =
      some (Power.loudness_lkfs p + 20 * Real.logb 10 α)
    congr 1
    rw [loudness_lkfs_mul (α ^ 2) p (by positivity) hppos, Real.logb_pow]
    push_cast
    ring

/-- Witness for C9 (amended) on the empty stream with `α = 1`. -/
theorem integrated_lkfs_scaling_witness :
    (0 : ℝ) < 1 ∧
      integratedLkfs 48000 (([] : List ℝ).map fun s => (1 : ℝ) * s) =
        (integratedLkfs 48000 ([] : List ℝ)).map fun l => l + 20 * Real.logb 10 1 :=
  ⟨by norm_num, integrated_lkfs_scaling 48000 [] 1 (by norm_num)
    (fun b _ => by rw [one_pow, one_mul])⟩

end Bs1770
